import Mathlib

/-!  Verification development for the debate app's turn-orchestration engine.

The definitions below are a shallow embedding of the source functions
`topicFocus`, `personaStyle`, `localReply`, `diversify`, `humanizeOpening`,
`selectRandomPersona`, `llmReply`'s response extraction, and `stepOnce`.
Text is modelled as `List Char`; every `Math.random()` draw of the source is
an explicit input (a rational in `[0,1)` for scores, or the resulting index /
threshold-comparison outcome where the source immediately floors or compares
the draw).  -/

namespace DebateApp

/-- JS `\s` whitespace class (ASCII part, which is all this code base uses). -/
def isWsChar (c : Char) : Bool :=
  c == ' ' || c == '\t' || c == '\n' || c == '\r' || c == '\x0b' || c == '\x0c'

/-- JS `\w` word-character class `[A-Za-z0-9_]`, used for `\b` boundaries. -/
def isWordChar (c : Char) : Bool := c.isAlphanum || c == '_'

/-- `String.prototype.toLowerCase`. -/
def lowerStr (l : List Char) : List Char := l.map Char.toLower

/-- `String.prototype.includes`: substring containment. -/
def containsB (pat : List Char) : List Char → Bool
  | [] => pat.isEmpty
  | c :: rest => pat.isPrefixOf (c :: rest) || containsB pat rest

/-- Case-insensitive regex test `/pat/i.test(t)` for a plain lowercase word `pat`. -/
def testCI (pat : String) (t : List Char) : Bool := containsB pat.toList (lowerStr t)

/-- `String.prototype.trimStart`. -/
def trimStartWs (l : List Char) : List Char := l.dropWhile isWsChar

/-- `String.prototype.trim`. -/
def trimWs (l : List Char) : List Char :=
  ((l.dropWhile isWsChar).reverse.dropWhile isWsChar).reverse

/-- Worker for `.replace(/\s+/g, " ")`: the flag records whether we are inside
a whitespace run whose single replacement `' '` was already emitted. -/
def collapseAux : Bool → List Char → List Char
  | _, [] => []
  | inWs, c :: rest =>
    if isWsChar c then
      if inWs then collapseAux true rest else ' ' :: collapseAux true rest
    else c :: collapseAux false rest

/-- `.replace(/\s+/g, " ")`. -/
def collapseWs (l : List Char) : List Char := collapseAux false l

/-- Does the case-insensitive literal `Topic:` start here? -/
def topicAt (l : List Char) : Bool := (l.take 6).map Char.toLower == "topic:".toList

/-- Worker for `.replace(/\bTopic:[^\n]*/gi, '')`: left-to-right scan; first
flag = previous char was a word char (for `\b`), second flag = currently
deleting a match (until the next newline). -/
def stripAux : Bool → Bool → List Char → List Char
  | _, _, [] => []
  | _, true, c :: rest =>
    if c == '\n' then '\n' :: stripAux false false rest
    else stripAux (isWordChar c) true rest
  | pw, false, c :: rest =>
    if !pw && topicAt (c :: rest) then stripAux (isWordChar c) true rest
    else c :: stripAux (isWordChar c) false rest

/-- `.replace(/\bTopic:[^\n]*/gi, '')`. -/
def stripTopicLabels (l : List Char) : List Char := stripAux false false l

/-- The sanitizer strip step of `stepOnce`:
`text.replace(/\bTopic:[^\n]*/gi, '').replace(/\s+/g, ' ').trim()`. -/
def stripStep (l : List Char) : List Char := trimWs (collapseWs (stripTopicLabels l))

/-- Worker for the non-global `.replace(/\bTopic:\s*/i, "")` in `topicFocus`:
removes the first word-boundary `Topic:` plus following whitespace. -/
def removeLabelAux : Bool → List Char → List Char
  | _, [] => []
  | pw, c :: rest =>
    if !pw && topicAt (c :: rest) then ((c :: rest).drop 6).dropWhile isWsChar
    else c :: removeLabelAux (isWordChar c) rest

/-- `topicFocus` from the source. -/
def topicFocus (topic : List Char) : List Char :=
  let t0 := if topic.isEmpty then "the issue".toList else topic
  let t := trimWs (removeLabelAux false t0)
  if testCI "youth" t || testCI "student" t || testCI "young" t then
    "youth engagement".toList
  else if testCI "media" t || testCI "press" t || testCI "news" t || testCI "framing" t then
    "media framing".toList
  else if testCI "sustain" t || testCI "retention" t || testCI "peak" t ||
      testCI "momentum" t || testCI "burnout" t then
    "sustained engagement".toList
  else if testCI "communicat" t || testCI "message" t || testCI "narrative" t then
    "communication".toList
  else if testCI "policy" t || testCI "lobby" t || testCI "institution" t ||
      testCI "participation" t then
    "policy & participation".toList
  else if testCI "what does activism mean" t then
    "personal meaning of activism".toList
  else t

/-- Persona record (ages and colors are carried but irrelevant to the logic). -/
structure Persona where
  name : List Char
  age : Int
  role : List Char
  color : List Char
  bio : List Char
  stance : List Char
deriving DecidableEq

/-- The neutral placeholder of `selectRandomPersona` / `localReply`
(`{ name: "Persona", role: "participant", color: "#6b7280" }`). -/
def placeholderPersona : Persona :=
  ⟨"Persona".toList, 0, "participant".toList, "#6b7280".toList, [], []⟩

/-- `personaStyle` from the source. -/
def personaStyle (role stance : List Char) : List Char :=
  let r := lowerStr (if role.isEmpty then "participant".toList else role)
  let s := lowerStr stance
  if containsB "student".toList r || containsB "youth".toList r then
    "energetic and hopeful".toList
  else if containsB "designer".toList r || containsB "digital".toList r then
    "strategic and media‑savvy".toList
  else if containsB "labour".toList r || containsB "organis".toList r then
    "grounded and collective".toList
  else if containsB "business".toList r || containsB "owner".toList r then
    "pragmatic and solution‑oriented".toList
  else if containsB "community".toList (r ++ " ".toList ++ s) ||
      containsB "neighbourhood".toList (r ++ " ".toList ++ s) ||
      containsB "mutual".toList (r ++ " ".toList ++ s) then
    "community‑first and practical".toList
  else "balanced and reflective".toList

/-- The three `Math.floor(Math.random() * n)` draws inside `localReply`,
modelled as arbitrary naturals reduced mod the list lengths. -/
structure LocalDraws where
  openerPick : Nat
  subjectPick : Nat
  claimPick : Nat
deriving DecidableEq

def youthClaims : List (List Char) :=
  [ "we should empower younger voices through authentic dialogue rather than tokenism.".toList,
    "schools and local communities should be active partners, not passive audiences.".toList,
    "activism must sound relevant to daily youth struggles, not abstract ideals.".toList ]

def mediaClaims : List (List Char) :=
  [ "we must tell nuanced stories that escape the typical conflict framing.".toList,
    "pair facts with human stories to cut through noise.".toList,
    "avoid echo chambers to keep credibility in the press.".toList ]

def sustainClaims : List (List Char) :=
  [ "the hardest part is maintaining hope between wins—collective care matters most.".toList,
    "rotate roles and celebrate progress to sustain activism.".toList,
    "long‑term structures, not viral spikes, keep communities alive.".toList ]

def communicationClaims : List (List Char) :=
  [ "clarity and consistency create trust.".toList,
    "listening first makes the message stronger.".toList,
    "design should help people see themselves in the cause.".toList ]

def policyClaims : List (List Char) :=
  [ "every protest should point to a clear policy pathway.".toList,
    "we need bridges between streets and decision rooms.".toList,
    "translate demands into specific proposals and timelines.".toList ]

def generalClaims : List (List Char) :=
  [ "different actors must collaborate rather than compete for attention.".toList,
    "activism isn't just anger—it's coordination and persistence.".toList,
    "combine passion with planning to move forward.".toList ]

/-- Bucket selection of `localReply` (tests run on the already-lowercased
focus, in the source's order). -/
def claimPoolFor (focus : List Char) : List (List Char) :=
  if containsB "youth".toList focus then youthClaims
  else if containsB "media".toList focus then mediaClaims
  else if containsB "sustain".toList focus then sustainClaims
  else if containsB "communicat".toList focus then communicationClaims
  else if containsB "policy".toList focus || containsB "participation".toList focus then
    policyClaims
  else generalClaims

/-- The five opener templates of `localReply`. -/
def openersList (tone roleLower : List Char) : List (List Char) :=
  [ "From my ".toList ++ tone ++ " perspective,".toList,
    "In my experience as ".toList ++ roleLower ++ ",".toList,
    "Honestly,".toList,
    "Let's be realistic,".toList,
    "Speaking practically,".toList ]

/-- `localReply` from the source. -/
def localReply (d : LocalDraws) (topic : List Char) (speaker : Option Persona)
    (lastLine : List Char) : List Char :=
  let sp := speaker.getD placeholderPersona
  let focus := lowerStr (topicFocus topic)
  let tone := personaStyle sp.role sp.stance
  let roleLower := lowerStr (if sp.role.isEmpty then "participant".toList else sp.role)
  let openers := openersList tone roleLower
  let opener := openers.getD (d.openerPick % openers.length) []
  let subjects : List (List Char) :=
    [ "when thinking about ".toList ++ focus,
      "on the question of ".toList ++ focus,
      "regarding ".toList ++ focus,
      "in terms of ".toList ++ focus ]
  let subject := subjects.getD (d.subjectPick % subjects.length) []
  let ack := if lastLine.isEmpty then [] else "building on that point, ".toList
  let pool := claimPoolFor focus
  let claim := pool.getD (d.claimPick % pool.length) []
  trimWs (collapseWs (opener ++ " ".toList ++ ack ++ subject ++ ", ".toList ++ claim))

/-- Greedy `[,\s]*` after a matched opener. -/
def dropCommaWs (l : List Char) : List Char := l.dropWhile (fun c => c == ',' || isWsChar c)

/-- One anchored rule `^pat[,\s]*` → `repl` of `diversify` (`pat` lowercase). -/
def replaceOpenerCI (pat repl : String) (t : List Char) : List Char :=
  if pat.toList.isPrefixOf (lowerStr t) then
    repl.toList ++ dropCommaWs (t.drop pat.toList.length)
  else t

/-- Does the greedy `.* perspective` part of `/^from my .* perspective[,\s]*/i`
succeed with `" perspective"` starting at index `i` of the lowercased text? -/
def perspectiveAt (lt : List Char) (i : Nat) : Bool :=
  decide (8 ≤ i) && " perspective".toList.isPrefixOf (lt.drop i) &&
    ((lt.take i).drop 8).all (fun c => c != '\n')

/-- `.replace(/^from my .* perspective[,\s]*/i, 'From where I stand, ')`:
the greedy `.*` picks the last feasible `" perspective"` occurrence. -/
def replacePerspective (t : List Char) : List Char :=
  let lt := lowerStr t
  if "from my ".toList.isPrefixOf lt then
    match ((List.range (lt.length + 1)).filter (perspectiveAt lt)).getLast? with
    | some i =>
        "From where I stand, ".toList ++
          dropCommaWs (t.drop (i + " perspective".toList.length))
    | none => t
  else t

def bridgesPhrase : List Char :=
  "we need bridges between streets and decision rooms".toList

/-- Does `/\bwe need bridges between streets and decision rooms\b/i` match at
index `i` of the lowercased text? -/
def bridgesAt (lt : List Char) (i : Nat) : Bool :=
  bridgesPhrase.isPrefixOf (lt.drop i) &&
    (i == 0 || !isWordChar (lt.getD (i - 1) ' ')) &&
    (decide (lt.length ≤ i + bridgesPhrase.length) ||
      !isWordChar (lt.getD (i + bridgesPhrase.length) ' '))

/-- The fourth `diversify` rule: replace the first occurrence of the bridges
phrase (word-bounded, case-insensitive). -/
def replaceBridges (t : List Char) : List Char :=
  let lt := lowerStr t
  match ((List.range (lt.length + 1)).filter (bridgesAt lt)).head? with
  | some i =>
      t.take i ++ "we should connect street energy with actual decision rooms".toList ++
        t.drop (i + bridgesPhrase.length)
  | none => t

/-- `diversify` from the source: the four chained `.replace` rules. -/
def diversify (t : List Char) : List Char :=
  replaceBridges (replacePerspective
    (replaceOpenerCI "let's be realistic" "Realistically, "
      (replaceOpenerCI "honestly" "In practice, " t)))

/-- The random draws of `humanizeOpening`: the `< 0.5` comparison outcome, the
swap index draw, and the `< 0.6` comparison outcome for each bridge index. -/
structure HumanDraws where
  dropOpener : Bool
  swapPick : Nat
  bridgeDrop : Nat → Bool

def humanDropsList : List String :=
  [ "from where i stand,", "honestly,", "in practice,", "let's be realistic,",
    "speaking practically,", "from my", "in my experience", "i'd put it this way," ]

def humanSwaps : List (List Char) :=
  [ "Here's how I see it,".toList, "One angle:".toList, "A quick thought,".toList ]

def humanBridges : List String :=
  [ "building on that,", "building on that point,", "pushing the point,", "i hear that," ]

/-- The sequential bridge-dropping loop of `humanizeOpening`. -/
def applyBridges (flags : Nat → Bool) : Nat → List String → List Char → List Char
  | _, [], s => s
  | i, b :: rest, s =>
    applyBridges flags (i + 1) rest
      (if b.toList.isPrefixOf (lowerStr s) && flags i then trimStartWs (s.drop b.toList.length)
       else s)

/-- `humanizeOpening` from the source. -/
def humanizeOpening (hd : HumanDraws) (t : List Char) : List Char :=
  let s0 := trimWs t
  let s1 :=
    match humanDropsList.find? (fun d => d.toList.isPrefixOf (lowerStr s0)) with
    | some d =>
        if hd.dropOpener then trimStartWs (s0.drop d.toList.length)
        else
          trimWs (humanSwaps.getD (hd.swapPick % humanSwaps.length) [] ++ " ".toList ++
            trimStartWs (s0.drop d.toList.length))
    | none => s0
  applyBridges hd.bridgeDrop 0 humanBridges s1

def continuationClause : List Char := " Here is a concrete next step: ".toList

/-- The per-speaker dedupe of `stepOnce`: if the lower-cased candidate is in
the speaker's memory, ensure a period and append the continuation clause. -/
def finalizeText (topic : List Char) (mem : List (List Char)) (t : List Char) : List Char :=
  if lowerStr t ∈ mem then
    (if t.getLast? = some '.' then t else t ++ ['.']) ++ continuationClause ++ topicFocus topic
  else t

/-- `memoryRef.current[key] = [norm(text), ...mem].slice(0, 5)`. -/
def pushMemory (mem : List (List Char)) (t : List Char) : List (List Char) :=
  (lowerStr t :: mem).take 5

/-- Parsed JSON shape used by `llmReply`'s extraction
`data?.choices?.[0]?.message?.content?.trim() || ''`. -/
structure ChatMessage where
  content : Option (List Char)

structure ChatChoice where
  message : Option ChatMessage

structure ChatResponse where
  choices : List ChatChoice

/-- `data?.choices?.[0]?.message?.content?.trim() || ''`. -/
def extractContent (r : ChatResponse) : List Char :=
  match r.choices.head? with
  | none => []
  | some ch =>
    match ch.message with
    | none => []
    | some m =>
      match m.content with
      | none => []
      | some c => trimWs c

/-- Remote-path configuration and outcome of one `llmReply` call: `useLLM`,
`backendStatus === 'connected'`, the selected model string (truthiness
matters), and either a parsed response or a thrown error. -/
structure RemoteEnv where
  useLLM : Bool
  connected : Bool
  model : List Char
  result : Except Unit ChatResponse

/-- Transcript entry `{ speaker, color, text, ts }`. -/
structure Utterance where
  speaker : List Char
  color : List Char
  text : List Char
  ts : Nat
deriving DecidableEq

/-- The additive topic/content relevance bonuses of `selectRandomPersona`
(all tests are independent `if`s over the same lowercase strings). -/
def scoreBonus (topicLower lastMessage roleLower : List Char) : ℚ :=
  let b1 : ℚ :=
    if (containsB "youth".toList topicLower || containsB "student".toList topicLower) &&
        (containsB "student".toList roleLower || containsB "youth".toList roleLower) then
      3 / 10 else 0
  let b2 : ℚ :=
    if (containsB "media".toList topicLower || containsB "communication".toList topicLower) &&
        (containsB "designer".toList roleLower || containsB "digital".toList roleLower ||
          containsB "media".toList roleLower) then
      3 / 10 else 0
  let b3 : ℚ :=
    if (containsB "labour".toList topicLower || containsB "union".toList topicLower ||
          containsB "worker".toList topicLower) &&
        (containsB "labour".toList roleLower || containsB "organiser".toList roleLower) then
      3 / 10 else 0
  let b4 : ℚ :=
    if (containsB "business".toList topicLower || containsB "policy".toList topicLower ||
          containsB "pragmatic".toList topicLower) &&
        (containsB "business".toList roleLower || containsB "owner".toList roleLower) then
      3 / 10 else 0
  let b5 : ℚ :=
    if (containsB "community".toList topicLower || containsB "local".toList topicLower ||
          containsB "neighbourhood".toList topicLower) &&
        (containsB "community".toList roleLower || containsB "neighbourhood".toList roleLower) then
      3 / 10 else 0
  let c1 : ℚ :=
    if (containsB "campus".toList lastMessage || containsB "university".toList lastMessage) &&
        containsB "student".toList roleLower then
      2 / 10 else 0
  let c2 : ℚ :=
    if (containsB "union".toList lastMessage || containsB "worker".toList lastMessage) &&
        containsB "labour".toList roleLower then
      2 / 10 else 0
  let c3 : ℚ :=
    if (containsB "media".toList lastMessage || containsB "story".toList lastMessage ||
          containsB "narrative".toList lastMessage) &&
        (containsB "designer".toList roleLower || containsB "digital".toList roleLower) then
      2 / 10 else 0
  let c4 : ℚ :=
    if (containsB "policy".toList lastMessage || containsB "practical".toList lastMessage ||
          containsB "solution".toList lastMessage) &&
        (containsB "business".toList roleLower || containsB "owner".toList roleLower) then
      2 / 10 else 0
  let c5 : ℚ :=
    if (containsB "community".toList lastMessage || containsB "local".toList lastMessage ||
          containsB "mutual".toList lastMessage) &&
        containsB "community".toList roleLower then
      2 / 10 else 0
  b1 + b2 + b3 + b4 + b5 + c1 + c2 + c3 + c4 + c5

/-- `log.slice(-3).map(l => l.speaker)`. -/
def recentSpeakersOf (log : List Utterance) : List (List Char) :=
  (log.drop (log.length - 3)).map Utterance.speaker

/-- `personas.filter(p => !recentSpeakers.includes(p.name))`. -/
def availableOf (personas : List Persona) (log : List Utterance) : List Persona :=
  personas.filter (fun p => !(p.name ∈ recentSpeakersOf log : Bool))

/-- `availablePersonas.length > 0 ? availablePersonas : personas`. -/
def candidatesOf (personas : List Persona) (log : List Utterance) : List Persona :=
  if (availableOf personas log).length > 0 then availableOf personas log else personas

/-- The top (at most 3) scored candidates: score each candidate with its base
draw plus the relevance bonuses, sort by score descending, slice. -/
def topOf (rnd : Nat → ℚ) (personas : List Persona) (log : List Utterance)
    (topic : List Char) : List (Persona × ℚ) :=
  let topicLower := lowerStr topic
  let lastMessage := lowerStr (((log.getLast?).map Utterance.text).getD [])
  let scored := (candidatesOf personas log).enum.map
    (fun ip => (ip.2, rnd ip.1 + scoreBonus topicLower lastMessage (lowerStr ip.2.role)))
  let sorted := scored.insertionSort (fun a b => b.2 ≤ a.2)
  sorted.take (min 3 sorted.length)

/-- `selectRandomPersona` from the source. `rnd i` is the base
`Math.random()` score of the `i`-th candidate; `pick` models the floored
uniform index draw (reduced mod the relevant length). -/
def selectRandomPersona (rnd : Nat → ℚ) (pick : Nat) (personas : List Persona)
    (log : List Utterance) (topic : List Char) : Persona :=
  if personas.isEmpty then placeholderPersona
  else if log.isEmpty then personas.getD (pick % personas.length) placeholderPersona
  else
    let top := topOf rnd personas log topic
    (top.getD (pick % top.length) (placeholderPersona, 0)).1

/-- Persona list, topic list and configured rounds read by `stepOnce`. -/
structure Config where
  personas : List Persona
  topics : List (List Char)
  rounds : Nat

/-- Mutable state touched by `stepOnce`: the transcript log, current topic
index, the playing flag and the per-speaker memory map. -/
structure DebateState where
  log : List Utterance
  topicIdx : Nat
  playing : Bool
  memory : List Char → List (List Char)

/-- All random draws consumed by one step. -/
structure StepDraws where
  selRnd : Nat → ℚ
  selPick : Nat
  gen : LocalDraws
  human : HumanDraws

/-- One scheduled invocation: remote environment, draws and timestamp. -/
structure StepIn where
  env : RemoteEnv
  draws : StepDraws
  now : Nat

/-- `Math.ceil(a / b)` for naturals. -/
def ceilDiv (a b : Nat) : Nat := (a + b - 1) / b

/-- `topics[topicIdx] || "General"` as read at the start of a step. -/
def currentTopic (cfg : Config) (s : DebateState) : List Char :=
  let raw := cfg.topics.getD s.topicIdx []
  if raw.isEmpty then "General".toList else raw

/-- The speaker a step selects. -/
def stepSpeaker (cfg : Config) (d : StepDraws) (s : DebateState) : Persona :=
  selectRandomPersona d.selRnd d.selPick cfg.personas s.log (currentTopic cfg s)

/-- `log[log.length - 1]?.text || ""`. -/
def lastLineOf (log : List Utterance) : List Char :=
  ((log.getLast?).map Utterance.text).getD []

/-- The unconditional post-processing of a produced text: strip `Topic:`
lines, collapse whitespace, trim, diversify openers, humanize the opening. -/
def sanitizePipeline (hd : HumanDraws) (raw : List Char) : List Char :=
  humanizeOpening hd (diversify (stripStep raw))

/-- The raw text a step produces: the remote path's extracted content when
`useLLM` is set, the backend is connected and a model is chosen and the call
succeeds; the local deterministic generator otherwise (also on any error). -/
def stepRaw (cfg : Config) (env : RemoteEnv) (d : StepDraws) (s : DebateState) :
    List Char :=
  if env.useLLM && env.connected && !env.model.isEmpty then
    match env.result with
    | .ok r => extractContent r
    | .error _ =>
      localReply d.gen (currentTopic cfg s) (some (stepSpeaker cfg d s)) (lastLineOf s.log)
  else
    localReply d.gen (currentTopic cfg s) (some (stepSpeaker cfg d s)) (lastLineOf s.log)

/-- The finalized text a step appends: raw production, sanitize pipeline,
per-speaker dedupe. -/
def stepText (cfg : Config) (env : RemoteEnv) (d : StepDraws) (s : DebateState) :
    List Char :=
  finalizeText (currentTopic cfg s) (s.memory (stepSpeaker cfg d s).name)
    (sanitizePipeline d.human (stepRaw cfg env d s))

/-- `stepOnce` from the source. -/
def stepOnce (cfg : Config) (env : RemoteEnv) (d : StepDraws) (now : Nat)
    (s : DebateState) : DebateState :=
  if cfg.personas.isEmpty then s
  else
    let speaker := stepSpeaker cfg d s
    let t4 := stepText cfg env d s
    let currentRound := ceilDiv (s.log.length + 1) cfg.personas.length
    let done := cfg.rounds < currentRound
    { log := s.log ++ [⟨speaker.name, speaker.color, t4, now⟩]
      topicIdx := if done then s.topicIdx else (currentRound - 1) % max 1 cfg.topics.length
      playing := if done then false else s.playing
      memory := fun k =>
        if k = speaker.name then pushMemory (s.memory speaker.name) t4 else s.memory k }

/-- `start()`: clear the log, reset the topic index, set playing (the
per-speaker memory ref is not cleared by `start`). -/
def startFrom (mem : List Char → List (List Char)) : DebateState :=
  ⟨[], 0, true, mem⟩

/-- Iterate `stepOnce` over a list of scheduled step inputs. -/
def runSteps (cfg : Config) : List StepIn → DebateState → DebateState
  | [], s => s
  | i :: rest, s => runSteps cfg rest (stepOnce cfg i.env i.draws i.now s)

/-- The topic index each step reads (`topics[topicIdx]`) at its start, i.e.
the topic under which its utterance is produced. -/
def usedTopicIdxs (cfg : Config) : List StepIn → DebateState → List Nat
  | [], _ => []
  | i :: rest, s => s.topicIdx :: usedTopicIdxs cfg rest (stepOnce cfg i.env i.draws i.now s)

/-- A left-to-right scan for a pending `\bTopic:` match (same traversal as
`stripAux` in scanning mode); used to reason about the strip step. -/
def hasMatch : Bool → List Char → Bool
  | _, [] => false
  | pw, c :: rest => (!pw && topicAt (c :: rest)) || hasMatch (isWordChar c) rest

/-- No two adjacent whitespace characters (normal form of `collapseWs`). -/
def noTwoWs : List Char → Bool
  | [] => true
  | [_] => true
  | a :: b :: t => !(isWsChar a && isWsChar b) && noTwoWs (b :: t)

/-- The per-speaker memory invariant of the engine: every stored sequence has
at most 5 entries, each entry is lower-cased, and the speaker of the last
logged utterance has that utterance's normalization at the front. -/
def MemInv (s : DebateState) : Prop :=
  (∀ name, (s.memory name).length ≤ 5 ∧ ∀ e ∈ s.memory name, lowerStr e = e) ∧
  (∀ u, s.log.getLast? = some u → (s.memory u.speaker).head? = some (lowerStr u.text))

/-! Concrete personas, configurations and draws used by witnesses and
counterexamples. -/

def exDrawsGen : LocalDraws := ⟨0, 2, 0⟩

def exDrawsHuman : HumanDraws := ⟨true, 0, fun _ => false⟩

def exDraws : StepDraws := ⟨fun _ => 0, 0, exDrawsGen, exDrawsHuman⟩

def exEnvOff : RemoteEnv := ⟨false, false, [], .error ()⟩

def exStepOff : StepIn := ⟨exEnvOff, exDraws, 0⟩

def exPersonaA : Persona := ⟨"A".toList, 30, "x".toList, "#111".toList, [], []⟩

def exPersonaB : Persona := ⟨"B".toList, 30, "y".toList, "#222".toList, [], []⟩

def exPersonaC : Persona := ⟨"C".toList, 30, "z".toList, "#333".toList, [], []⟩

def exConfig2 : Config := ⟨[exPersonaA, exPersonaB], ["T1".toList, "T2".toList], 2⟩

def exConfig3 : Config :=
  ⟨[exPersonaA, exPersonaB, exPersonaC], ["T1".toList, "T2".toList], 2⟩

def exConfigPersp : Config := ⟨[exPersonaA], ["perspective topic: topic: x".toList], 2⟩

def exConfigEmpty : Config := ⟨[], ["T1".toList], 2⟩

def exStart : DebateState := startFrom (fun _ => [])

def exEnvOkNoContent : RemoteEnv := ⟨true, true, "m".toList, .ok ⟨[⟨some ⟨none⟩⟩]⟩⟩

/-! ### General helper lemmas -/

theorem list_getD_mem {α : Type} (l : List α) (i : Nat) (d : α) (h : i < l.length) :
    l.getD i d ∈ l := by
  induction l generalizing i with
  | nil => simp at h
  | cons a t ih =>
    cases i with
    | zero => simp [List.getD]
    | succ n =>
      simp only [List.getD_cons_succ]
      exact List.mem_cons_of_mem a (ih n (by simpa using h))

/-! ### C10 -/

/-- C10: if the persona list is empty, `step()` is a complete no-op — it
returns the state unchanged (log, topic index, playing flag and all
per-speaker memories), producing no placeholder-persona utterance. -/
theorem c10_empty_personas_noop (cfg : Config) (env : RemoteEnv) (d : StepDraws)
    (now : Nat) (s : DebateState) (h : cfg.personas = []) :
    stepOnce cfg env d now s = s := by
  simp [stepOnce, h]

theorem c10_empty_personas_witness :
    stepOnce exConfigEmpty exEnvOff exDraws 0 exStart = exStart :=
  c10_empty_personas_noop exConfigEmpty exEnvOff exDraws 0 exStart rfl

/-! ### C6 -/

/-- C6: if the sanitized text's lower-cased normalization matches one of the
speaker's stored normalized texts, the finalized output differs from the raw
duplicate and is the raw text (with a period ensured) followed by the literal
continuation clause and the topic-focus string; the new normalized text is
then pushed onto the front of the speaker's memory. -/
theorem c6_duplicate_suppression (topic : List Char) (mem : List (List Char))
    (t : List Char) (h : lowerStr t ∈ mem) :
    finalizeText topic mem t ≠ t ∧
    finalizeText topic mem t =
      (if t.getLast? = some '.' then t else t ++ ['.']) ++
        continuationClause ++ topicFocus topic ∧
    (pushMemory mem (finalizeText topic mem t)).head? =
      some (lowerStr (finalizeText topic mem t)) := by
  refine ⟨?_, by simp [finalizeText, h], by simp [pushMemory]⟩
  intro heq
  apply_fun List.length at heq
  simp only [finalizeText, if_pos h, List.length_append, continuationClause] at heq
  split at heq <;> simp at heq <;> omega

theorem c6_duplicate_suppression_witness :
    finalizeText "T1".toList [lowerStr "X.".toList] "X.".toList ≠ "X.".toList ∧
    finalizeText "T1".toList [lowerStr "X.".toList] "X.".toList =
      (if ("X.".toList).getLast? = some '.' then "X.".toList else "X.".toList ++ ['.']) ++
        continuationClause ++ topicFocus "T1".toList ∧
    (pushMemory [lowerStr "X.".toList]
        (finalizeText "T1".toList [lowerStr "X.".toList] "X.".toList)).head? =
      some (lowerStr (finalizeText "T1".toList [lowerStr "X.".toList] "X.".toList)) :=
  c6_duplicate_suppression "T1".toList [lowerStr "X.".toList] "X.".toList (by decide)

/-! ### Counterexamples for C1, C2, C4 and C5 -/

/-- C1 counterexample: with 3 personas and `rounds = 2`, the run is not
completed after the 6th step — `playing` is still `true` (completion only
happens on the following step, when `currentRound` exceeds `rounds`). -/
theorem c1_counterexample :
    (runSteps exConfig3 (List.replicate 6 exStepOff) exStart).playing = true := by
  decide

/-- C2 counterexample: in the scenario personas = [A, B],
topics = ["T1", "T2"], rounds = 2, the four utterances are produced under
topic indices 0, 0, 0, 1 — not 0, 0, 1, 1 as the claim requires (the third
utterance is still produced under "T1"). -/
theorem c2_counterexample :
    usedTopicIdxs exConfig2 (List.replicate 4 exStepOff) exStart = [0, 0, 0, 1] ∧
    usedTopicIdxs exConfig2 (List.replicate 4 exStepOff) exStart ≠ [0, 0, 1, 1] := by
  constructor
  · decide
  · decide

/-- C4 counterexample: for the topic "aTopic: x" (whose embedded label is not
word-bounded, hence not stripped by `topicFocus`), the local generator's
output contains a case-insensitive occurrence of "Topic:". -/
theorem c4_counterexample :
    containsB "topic:".toList
      (lowerStr (localReply exDrawsGen "aTopic: x".toList none [])) = true := by
  decide

/-- C5 counterexample: a step with a non-empty persona list and the remote
path disabled can append an utterance whose sanitized text is empty (the
diversifier plus opening humanizer can consume the whole text). -/
theorem c5_counterexample :
    exConfigPersp.personas ≠ [] ∧
    (stepOnce exConfigPersp exEnvOff exDraws 0 exStart).log.map Utterance.text
      = [[]] := by
  exact ⟨by decide, by decide⟩

/-! ### C3 -/

theorem candidatesOf_subset (personas : List Persona) (log : List Utterance) :
    candidatesOf personas log ⊆ personas := by
  unfold candidatesOf
  split
  · exact fun a h => (List.mem_filter.mp h).1
  · exact fun a h => h

theorem candidatesOf_ne_nil (personas : List Persona) (log : List Utterance)
    (h : personas ≠ []) : candidatesOf personas log ≠ [] := by
  unfold candidatesOf
  split
  · next hlen => exact List.ne_nil_of_length_pos hlen
  · exact h

theorem topOf_mem (rnd : Nat → ℚ) (personas : List Persona) (log : List Utterance)
    (topic : List Char) (pr : Persona × ℚ) (h : pr ∈ topOf rnd personas log topic) :
    pr.1 ∈ candidatesOf personas log := by
  unfold topOf at h
  have h1 := List.mem_of_mem_take h
  rw [List.mem_insertionSort] at h1
  obtain ⟨ip, hip, rfl⟩ := List.mem_map.mp h1
  have : ip.2 ∈ (candidatesOf personas log).enum.map Prod.snd := List.mem_map_of_mem _ hip
  rwa [List.enum_map_snd] at this

theorem topOf_length_pos (rnd : Nat → ℚ) (personas : List Persona)
    (log : List Utterance) (topic : List Char) (h : personas ≠ []) :
    0 < (topOf rnd personas log topic).length := by
  have hc : candidatesOf personas log ≠ [] := candidatesOf_ne_nil personas log h
  have hcpos : 0 < (candidatesOf personas log).length := List.length_pos.mpr hc
  unfold topOf
  simp only [List.length_take, List.length_insertionSort, List.length_map,
    List.enum_length]
  omega

/-- C3: for every non-empty persona list and every log, `selectRandomPersona`
returns a member of the input list; and when there are more than 3 personas
and at least 3 logged utterances, the returned persona's name is not among
the speakers of the last 3 log entries unless every persona's name already
appears among those speakers. -/
theorem c3_select_speaker_sound (rnd : Nat → ℚ) (pick : Nat)
    (personas : List Persona) (log : List Utterance) (topic : List Char)
    (hne : personas ≠ []) :
    selectRandomPersona rnd pick personas log topic ∈ personas ∧
    (3 ≤ log.length → 3 < personas.length →
      (∀ p ∈ personas, p.name ∈ recentSpeakersOf log) ∨
      (selectRandomPersona rnd pick personas log topic).name ∉ recentSpeakersOf log) := by
  have hemp : personas.isEmpty = false := by
    simpa [List.isEmpty_iff] using hne
  by_cases hlog : log.isEmpty
  · constructor
    · unfold selectRandomPersona
      rw [if_neg (by simp [hemp]), if_pos hlog]
      exact list_getD_mem personas _ placeholderPersona
        (Nat.mod_lt _ (List.length_pos.mpr hne))
    · intro h3
      rw [List.isEmpty_iff] at hlog
      simp [hlog] at h3
  · have hsel : selectRandomPersona rnd pick personas log topic =
        ((topOf rnd personas log topic).getD
          (pick % (topOf rnd personas log topic).length) (placeholderPersona, 0)).1 := by
      unfold selectRandomPersona
      rw [if_neg (by simp [hemp]), if_neg hlog]
    have htop : 0 < (topOf rnd personas log topic).length :=
      topOf_length_pos rnd personas log topic hne
    have hmemtop : (topOf rnd personas log topic).getD
        (pick % (topOf rnd personas log topic).length) (placeholderPersona, 0) ∈
        topOf rnd personas log topic :=
      list_getD_mem _ _ _ (Nat.mod_lt _ htop)
    have hcand : selectRandomPersona rnd pick personas log topic ∈
        candidatesOf personas log := by
      rw [hsel]
      exact topOf_mem rnd personas log topic _ hmemtop
    refine ⟨candidatesOf_subset personas log hcand, ?_⟩
    intro _ _
    by_cases hav : (availableOf personas log).length > 0
    · right
      have : candidatesOf personas log = availableOf personas log := by
        unfold candidatesOf
        rw [if_pos hav]
      rw [this] at hcand
      have := List.mem_filter.mp hcand
      simpa using this.2
    · left
      have hav0 : availableOf personas log = [] := List.length_eq_zero.mp (by omega)
      intro p hp
      by_contra hnot
      have hmem : p ∈ availableOf personas log :=
        List.mem_filter.mpr ⟨hp, by simpa using hnot⟩
      rw [hav0] at hmem
      simp at hmem

theorem c3_select_speaker_witness :
    selectRandomPersona (fun _ => 0) 0 [exPersonaA, exPersonaB] [] "T1".toList ∈
      [exPersonaA, exPersonaB] :=
  (c3_select_speaker_sound (fun _ => 0) 0 [exPersonaA, exPersonaB] [] "T1".toList
    (by decide)).1

/-! ### C1 and C2: round/topic counters -/

theorem stepOnce_log_length (cfg : Config) (env : RemoteEnv) (d : StepDraws)
    (now : Nat) (s : DebateState) (hp : cfg.personas ≠ []) :
    (stepOnce cfg env d now s).log.length = s.log.length + 1 := by
  have hemp : cfg.personas.isEmpty = false := by simpa [List.isEmpty_iff] using hp
  simp [stepOnce, hemp]

theorem stepOnce_playing (cfg : Config) (env : RemoteEnv) (d : StepDraws)
    (now : Nat) (s : DebateState) (hp : cfg.personas ≠ []) :
    (stepOnce cfg env d now s).playing =
      if cfg.rounds < ceilDiv (s.log.length + 1) cfg.personas.length then false
      else s.playing := by
  have hemp : cfg.personas.isEmpty = false := by simpa [List.isEmpty_iff] using hp
  simp [stepOnce, hemp]

theorem stepOnce_topicIdx (cfg : Config) (env : RemoteEnv) (d : StepDraws)
    (now : Nat) (s : DebateState) (hp : cfg.personas ≠ []) :
    (stepOnce cfg env d now s).topicIdx =
      if cfg.rounds < ceilDiv (s.log.length + 1) cfg.personas.length then s.topicIdx
      else (ceilDiv (s.log.length + 1) cfg.personas.length - 1) % max 1 cfg.topics.length := by
  have hemp : cfg.personas.isEmpty = false := by simpa [List.isEmpty_iff] using hp
  simp [stepOnce, hemp]

theorem ceilDiv_le_iff (k p r : Nat) (hp : 0 < p) : ceilDiv k p ≤ r ↔ k ≤ p * r := by
  unfold ceilDiv
  rw [Nat.div_le_iff_le_mul_add_pred hp]
  omega

theorem runSteps_append (cfg : Config) (a b : List StepIn) (s : DebateState) :
    runSteps cfg (a ++ b) s = runSteps cfg b (runSteps cfg a s) := by
  induction a generalizing s with
  | nil => simp [runSteps]
  | cons i rest ih => simp [runSteps, ih]

theorem runSteps_not_done (cfg : Config) (hp : cfg.personas ≠ []) :
    ∀ (ins : List StepIn) (s : DebateState),
      s.log.length + ins.length ≤ cfg.personas.length * cfg.rounds →
      (runSteps cfg ins s).log.length = s.log.length + ins.length ∧
      (runSteps cfg ins s).playing = s.playing := by
  intro ins
  induction ins with
  | nil => intro s _; simp [runSteps]
  | cons i rest ih =>
    intro s hle
    have hp0 : 0 < cfg.personas.length := List.length_pos.mpr hp
    have hlen : (stepOnce cfg i.env i.draws i.now s).log.length = s.log.length + 1 :=
      stepOnce_log_length cfg i.env i.draws i.now s hp
    have hnd : ¬cfg.rounds < ceilDiv (s.log.length + 1) cfg.personas.length := by
      rw [Nat.not_lt]
      rw [← Nat.lt_succ_iff, Nat.lt_succ_iff]
      rw [ceilDiv_le_iff _ _ _ hp0]
      simp only [List.length_cons] at hle
      omega
    have hplay : (stepOnce cfg i.env i.draws i.now s).playing = s.playing := by
      rw [stepOnce_playing cfg i.env i.draws i.now s hp, if_neg hnd]
    have := ih (stepOnce cfg i.env i.draws i.now s) (by
      rw [hlen]
      simp only [List.length_cons] at hle
      omega)
    simp only [runSteps]
    constructor
    · rw [this.1, hlen]
      simp only [List.length_cons]
      omega
    · rw [this.2, hplay]

/-- C1 (amended): for a non-empty persona list, the run completes exactly
after the `(p*r + 1)`-th step, not the `(p*r)`-th: after at most `p*r` steps
from `start()` the `playing` flag is still true, and after `p*r + 1` steps it
is false (so with 3 personas and rounds = 2 completion happens on the 7th
step, and with 2 personas and rounds = 2 on the 5th). -/
theorem c1_completion_after_pr_plus_one (cfg : Config) (hp : cfg.personas ≠ [])
    (ins : List StepIn) (mem : List Char → List (List Char)) :
    (ins.length ≤ cfg.personas.length * cfg.rounds →
      (runSteps cfg ins (startFrom mem)).playing = true) ∧
    (ins.length = cfg.personas.length * cfg.rounds + 1 →
      (runSteps cfg ins (startFrom mem)).playing = false) := by
  have hp0 : 0 < cfg.personas.length := List.length_pos.mpr hp
  constructor
  · intro hle
    have := runSteps_not_done cfg hp ins (startFrom mem) (by simpa [startFrom] using hle)
    simpa [startFrom] using this.2
  · intro hlen
    have hne : ins ≠ [] := by
      intro h
      rw [h] at hlen
      simp at hlen
    obtain ⟨front, last, heq⟩ : ∃ f l, ins = f ++ [l] :=
      ⟨ins.dropLast, ins.getLast hne, (List.dropLast_append_getLast hne).symm⟩
    subst heq
    rw [runSteps_append]
    have hflen : front.length = cfg.personas.length * cfg.rounds := by
      simp at hlen
      omega
    have hfront := runSteps_not_done cfg hp front (startFrom mem)
      (by simp [startFrom, hflen])
    have h1 : (runSteps cfg front (startFrom mem)).log.length =
        cfg.personas.length * cfg.rounds := by
      rw [hfront.1]
      simp [startFrom, hflen]
    have hceil : ceilDiv ((runSteps cfg front (startFrom mem)).log.length + 1)
        cfg.personas.length = cfg.rounds + 1 := by
      rw [h1]
      unfold ceilDiv
      have harith : cfg.personas.length * cfg.rounds + 1 + cfg.personas.length - 1 =
          cfg.personas.length * (cfg.rounds + 1) := by
        have : cfg.personas.length * (cfg.rounds + 1) =
            cfg.personas.length * cfg.rounds + cfg.personas.length := by ring
        omega
      rw [harith, Nat.mul_div_cancel_left _ hp0]
    simp only [runSteps]
    rw [stepOnce_playing cfg last.env last.draws last.now _ hp, hceil,
      if_pos (Nat.lt_succ_self _)]

theorem c1_completion_witness :
    (runSteps exConfig2 (List.replicate 5 exStepOff) (startFrom (fun _ => []))).playing
      = false :=
  (c1_completion_after_pr_plus_one exConfig2 (by decide)
    (List.replicate 5 exStepOff) (fun _ => [])).2 (by decide)

/-- C2 (amended): while the step does not complete the run, the topic index
after the step equals `(currentRound - 1) mod max(1, topicCount)` where
`currentRound = ceil(totalUtteranceCount / personaCount)` over the post-step
log; the utterance of a step is however produced under the pre-step topic
index, so the first utterance of each new round still uses the previous
round's topic (scenario: topics run T1, T1, T1, T2, not T1, T1, T2, T2). -/
theorem c2_topic_index_formula (cfg : Config) (env : RemoteEnv) (d : StepDraws)
    (now : Nat) (s : DebateState) (hp : cfg.personas ≠ [])
    (hnd : ceilDiv (s.log.length + 1) cfg.personas.length ≤ cfg.rounds) :
    (stepOnce cfg env d now s).topicIdx =
      (ceilDiv ((stepOnce cfg env d now s).log.length) cfg.personas.length - 1) %
        max 1 cfg.topics.length := by
  rw [stepOnce_topicIdx cfg env d now s hp, stepOnce_log_length cfg env d now s hp,
    if_neg (Nat.not_lt.mpr hnd)]

theorem c2_topic_index_witness :
    (stepOnce exConfig2 exEnvOff exDraws 0 exStart).topicIdx =
      (ceilDiv ((stepOnce exConfig2 exEnvOff exDraws 0 exStart).log.length)
          exConfig2.personas.length - 1) % max 1 exConfig2.topics.length :=
  c2_topic_index_formula exConfig2 exEnvOff exDraws 0 exStart (by decide) (by decide)

/-! ### C5 and C9: the reply production paths -/

theorem stepOnce_log_eq (cfg : Config) (env : RemoteEnv) (d : StepDraws) (now : Nat)
    (s : DebateState) (raw : List Char) (hp : cfg.personas ≠ [])
    (hraw : stepRaw cfg env d s = raw) :
    (stepOnce cfg env d now s).log = s.log ++
      [⟨(stepSpeaker cfg d s).name, (stepSpeaker cfg d s).color,
        finalizeText (currentTopic cfg s) (s.memory (stepSpeaker cfg d s).name)
          (sanitizePipeline d.human raw), now⟩] := by
  have hemp : cfg.personas.isEmpty = false := by simpa [List.isEmpty_iff] using hp
  rw [← hraw]
  simp [stepOnce, stepText, hemp]

/-- C5 (amended): whenever the remote path is disabled (`useLLM` false,
backend not connected, no model) or the remote call errors, the step still
appends exactly one utterance whose text is the sanitized output of the local
deterministic generator — the remote failure is never fatal and is not
surfaced to the transcript.  (The appended text is however not always
non-empty: see the counterexample.) -/
theorem c5_remote_failure_fallback (cfg : Config) (env : RemoteEnv) (d : StepDraws)
    (now : Nat) (s : DebateState) (hp : cfg.personas ≠ [])
    (hfail : env.useLLM = false ∨ env.connected = false ∨ env.model = [] ∨
      env.result = .error ()) :
    (stepOnce cfg env d now s).log = s.log ++
      [⟨(stepSpeaker cfg d s).name, (stepSpeaker cfg d s).color,
        finalizeText (currentTopic cfg s) (s.memory (stepSpeaker cfg d s).name)
          (sanitizePipeline d.human
            (localReply d.gen (currentTopic cfg s) (some (stepSpeaker cfg d s))
              (lastLineOf s.log))), now⟩] := by
  apply stepOnce_log_eq cfg env d now s _ hp
  unfold stepRaw
  by_cases hcond : (env.useLLM && env.connected && !env.model.isEmpty) = true
  · rw [if_pos hcond]
    simp only [Bool.and_eq_true, Bool.not_eq_true', List.isEmpty_eq_false] at hcond
    rcases hfail with h | h | h | h
    · rw [h] at hcond; simp at hcond
    · rw [h] at hcond; simp at hcond
    · exact absurd h hcond.2
    · rw [h]
  · rw [if_neg hcond]

theorem c5_remote_failure_witness :
    (stepOnce exConfig2 exEnvOff exDraws 0 exStart).log = exStart.log ++
      [⟨(stepSpeaker exConfig2 exDraws exStart).name,
        (stepSpeaker exConfig2 exDraws exStart).color,
        finalizeText (currentTopic exConfig2 exStart)
          (exStart.memory (stepSpeaker exConfig2 exDraws exStart).name)
          (sanitizePipeline exDraws.human
            (localReply exDraws.gen (currentTopic exConfig2 exStart)
              (some (stepSpeaker exConfig2 exDraws exStart))
              (lastLineOf exStart.log))), 0⟩] :=
  c5_remote_failure_fallback exConfig2 exEnvOff exDraws 0 exStart (by decide)
    (Or.inl rfl)

theorem sanitizePipeline_nil (hd : HumanDraws) : sanitizePipeline hd [] = [] := rfl

/-- C9: a successful remote response carrying no message content yields the
empty string from the remote path (the missing field is defaulted, not
treated as a failure): the step does not fall back to the local generator and
appends an utterance whose text is empty (assuming the speaker's memory does
not already hold the empty normalized text). -/
theorem c9_remote_empty_content (cfg : Config) (env : RemoteEnv) (d : StepDraws)
    (now : Nat) (s : DebateState) (r : ChatResponse) (hp : cfg.personas ≠ [])
    (hu : env.useLLM = true) (hc : env.connected = true) (hm : env.model ≠ [])
    (hok : env.result = .ok r)
    (hmiss : (r.choices.head?.bind ChatChoice.message).bind ChatMessage.content = none)
    (hmem : ∀ name, [] ∉ s.memory name) :
    (stepOnce cfg env d now s).log = s.log ++
      [⟨(stepSpeaker cfg d s).name, (stepSpeaker cfg d s).color, [], now⟩] := by
  have hext : extractContent r = [] := by
    unfold extractContent
    cases hch : r.choices.head? with
    | none => rfl
    | some ch =>
      cases hm2 : ch.message with
      | none => simp [hm2]
      | some m =>
        cases hc2 : m.content with
        | none => simp [hm2, hc2]
        | some c =>
          exfalso
          have hbind : (r.choices.head?.bind ChatChoice.message).bind ChatMessage.content
              = some c := by
            rw [hch]
            simp [hm2, hc2]
          rw [hmiss] at hbind
          exact Option.noConfusion hbind
  have hfin : finalizeText (currentTopic cfg s) (s.memory (stepSpeaker cfg d s).name)
      (sanitizePipeline d.human []) = [] := by
    rw [sanitizePipeline_nil]
    unfold finalizeText
    rw [if_neg (by simpa [lowerStr] using hmem (stepSpeaker cfg d s).name)]
  have := stepOnce_log_eq cfg env d now s [] hp (by
    unfold stepRaw
    rw [if_pos (by simp [hu, hc, List.isEmpty_iff, hm]), hok]
    exact hext)
  rw [this, hfin]

theorem c9_remote_empty_content_witness :
    (stepOnce exConfig2 exEnvOkNoContent exDraws 0 exStart).log = exStart.log ++
      [⟨(stepSpeaker exConfig2 exDraws exStart).name,
        (stepSpeaker exConfig2 exDraws exStart).color, [], 0⟩] :=
  c9_remote_empty_content exConfig2 exEnvOkNoContent exDraws 0 exStart
    ⟨[⟨some ⟨none⟩⟩]⟩ (by decide) rfl rfl (by decide) rfl rfl
    (fun name => by simp [exStart, startFrom])

/-! ### C7: per-speaker memory invariant -/

theorem char_toLower_idem (c : Char) : Char.toLower (Char.toLower c) = Char.toLower c := by
  unfold Char.toLower
  by_cases h : c.toNat ≥ 65 ∧ c.toNat ≤ 90
  · rw [if_pos h]
    have hval : (c.toNat + 32).isValidChar := by left; omega
    have hn : (Char.ofNat (c.toNat + 32)).toNat = c.toNat + 32 := by
      unfold Char.ofNat
      rw [dif_pos hval]
      rfl
    rw [if_neg (by omega)]
  · rw [if_neg h, if_neg h]

theorem lowerStr_idem (l : List Char) : lowerStr (lowerStr l) = lowerStr l := by
  unfold lowerStr
  rw [List.map_map]
  exact List.map_congr_left (fun c _ => char_toLower_idem c)

theorem stepOnce_memory (cfg : Config) (env : RemoteEnv) (d : StepDraws) (now : Nat)
    (s : DebateState) (hemp : cfg.personas.isEmpty = false) :
    (stepOnce cfg env d now s).memory = fun k =>
      if k = (stepSpeaker cfg d s).name then
        pushMemory (s.memory (stepSpeaker cfg d s).name) (stepText cfg env d s)
      else s.memory k := by
  simp [stepOnce, hemp]

theorem stepOnce_log_concat (cfg : Config) (env : RemoteEnv) (d : StepDraws) (now : Nat)
    (s : DebateState) (hemp : cfg.personas.isEmpty = false) :
    (stepOnce cfg env d now s).log = s.log ++
      [⟨(stepSpeaker cfg d s).name, (stepSpeaker cfg d s).color,
        stepText cfg env d s, now⟩] := by
  simp [stepOnce, hemp]

/-- C7: every step preserves the per-speaker memory invariant — each stored
sequence has at most 5 entries, each entry is lower-cased, and the speaker of
the most recent utterance has that utterance's normalization at the front of
their sequence. -/
theorem c7_memory_invariant_preserved (cfg : Config) (env : RemoteEnv) (d : StepDraws)
    (now : Nat) (s : DebateState) (h : MemInv s) :
    MemInv (stepOnce cfg env d now s) := by
  by_cases hp : cfg.personas.isEmpty
  · have hid : stepOnce cfg env d now s = s := by simp [stepOnce, hp]
    rw [hid]
    exact h
  · have hemp : cfg.personas.isEmpty = false := by simpa using hp
    obtain ⟨h1, h2⟩ := h
    constructor
    · intro name
      rw [stepOnce_memory cfg env d now s hemp]
      simp only []
      by_cases hk : name = (stepSpeaker cfg d s).name
      · rw [if_pos hk]
        constructor
        · unfold pushMemory
          have := List.length_take_le 5
            (lowerStr (stepText cfg env d s) :: s.memory (stepSpeaker cfg d s).name)
          omega
        · intro e he
          unfold pushMemory at he
          have hin : e ∈ lowerStr (stepText cfg env d s) ::
              s.memory (stepSpeaker cfg d s).name := List.mem_of_mem_take he
          rcases List.mem_cons.mp hin with heq | hin2
          · rw [heq]
            exact lowerStr_idem _
          · exact (h1 (stepSpeaker cfg d s).name).2 e hin2
      · rw [if_neg hk]
        exact h1 name
    · intro u hu
      rw [stepOnce_log_concat cfg env d now s hemp, List.getLast?_concat] at hu
      rw [stepOnce_memory cfg env d now s hemp]
      simp only []
      injection hu with hu
      rw [← hu]
      simp [pushMemory]

theorem c7_memory_invariant_witness :
    MemInv (stepOnce exConfig2 exEnvOff exDraws 0 exStart) :=
  c7_memory_invariant_preserved exConfig2 exEnvOff exDraws 0 exStart
    ⟨fun name => ⟨by simp [exStart, startFrom], by simp [exStart, startFrom]⟩,
     fun u hu => by simp [exStart, startFrom] at hu⟩

/-! ### C4: the local generator's output -/

theorem char_toLower_ne_T (c : Char) : Char.toLower c ≠ 'T' := by
  unfold Char.toLower
  by_cases h : c.toNat ≥ 65 ∧ c.toNat ≤ 90
  · rw [if_pos h]
    intro heq
    have hval : (c.toNat + 32).isValidChar := by left; omega
    have hn : (Char.ofNat (c.toNat + 32)).toNat = c.toNat + 32 := by
      unfold Char.ofNat
      rw [dif_pos hval]
      rfl
    rw [heq] at hn
    have hT : ('T').toNat = 84 := by decide
    omega
  · rw [if_neg h]
    intro heq
    rw [heq] at h
    exact h (by decide)

theorem lowerStr_no_T (l : List Char) : ∀ c ∈ lowerStr l, c ≠ 'T' := by
  intro c hc
  obtain ⟨a, _, rfl⟩ := List.mem_map.mp hc
  exact char_toLower_ne_T a

theorem containsB_topic_eq_false (l : List Char) (h : ∀ c ∈ l, c ≠ 'T') :
    containsB "Topic:".toList l = false := by
  induction l with
  | nil => rfl
  | cons a t ih =>
    unfold containsB
    rw [ih (fun c hc => h c (List.mem_cons_of_mem a hc))]
    have ha : a ≠ 'T' := h a (List.mem_cons_self a t)
    simp [List.isPrefixOf]
    intro heq
    exact absurd heq.symm ha

theorem mem_of_mem_dropWhile (p : Char → Bool) (l : List Char) (c : Char)
    (h : c ∈ l.dropWhile p) : c ∈ l := by
  induction l with
  | nil => simp at h
  | cons a t ih =>
    rw [List.dropWhile_cons] at h
    split at h
    · exact List.mem_cons_of_mem a (ih h)
    · exact h

theorem mem_of_mem_trimWs (l : List Char) (c : Char) (h : c ∈ trimWs l) : c ∈ l := by
  unfold trimWs at h
  rw [List.mem_reverse] at h
  have h2 := mem_of_mem_dropWhile _ _ _ h
  rw [List.mem_reverse] at h2
  exact mem_of_mem_dropWhile _ _ _ h2

theorem mem_of_mem_collapseAux (l : List Char) (c : Char) :
    ∀ b, c ∈ collapseAux b l → c ∈ l ∨ c = ' ' := by
  induction l with
  | nil => intro b h; simp [collapseAux] at h
  | cons a t ih =>
    intro b h
    unfold collapseAux at h
    split at h
    · split at h
      · rcases ih true h with h2 | h2
        · exact Or.inl (List.mem_cons_of_mem a h2)
        · exact Or.inr h2
      · rcases List.mem_cons.mp h with h2 | h2
        · exact Or.inr h2
        · rcases ih true h2 with h3 | h3
          · exact Or.inl (List.mem_cons_of_mem a h3)
          · exact Or.inr h3
    · rcases List.mem_cons.mp h with h2 | h2
      · exact Or.inl (h2 ▸ List.mem_cons_self a t)
      · rcases ih false h2 with h3 | h3
        · exact Or.inl (List.mem_cons_of_mem a h3)
        · exact Or.inr h3

theorem getD_no_T (L : List (List Char)) (hL : ∀ x ∈ L, ∀ c ∈ x, c ≠ 'T') (i : Nat) :
    ∀ c ∈ L.getD i [], c ≠ 'T' := by
  by_cases h : i < L.length
  · exact hL _ (list_getD_mem L i [] h)
  · rw [List.getD_eq_getElem?_getD, List.getElem?_eq_none (Nat.le_of_not_lt h)]
    intro c hc
    simp at hc

theorem personaStyle_no_T (role stance : List Char) :
    ∀ c ∈ personaStyle role stance, c ≠ 'T' := by
  unfold personaStyle
  simp only []
  split_ifs <;> decide

theorem claimPoolFor_no_T (focus : List Char) :
    ∀ x ∈ claimPoolFor focus, ∀ c ∈ x, c ≠ 'T' := by
  unfold claimPoolFor
  split_ifs <;> decide

theorem openersList_no_T (tone roleLower : List Char)
    (ht : ∀ c ∈ tone, c ≠ 'T') (hr : ∀ c ∈ roleLower, c ≠ 'T') :
    ∀ x ∈ openersList tone roleLower, ∀ c ∈ x, c ≠ 'T' := by
  intro x hx
  unfold openersList at hx
  simp only [List.mem_cons, List.not_mem_nil, or_false] at hx
  rcases hx with rfl | rfl | rfl | rfl | rfl
  · intro c hc
    rcases List.mem_append.mp hc with hc | hc
    · rcases List.mem_append.mp hc with hc | hc
      · exact (show ∀ x ∈ "From my ".toList, x ≠ 'T' by decide) c hc
      · exact ht c hc
    · exact (show ∀ x ∈ " perspective,".toList, x ≠ 'T' by decide) c hc
  · intro c hc
    rcases List.mem_append.mp hc with hc | hc
    · rcases List.mem_append.mp hc with hc | hc
      · exact (show ∀ x ∈ "In my experience as ".toList, x ≠ 'T' by decide) c hc
      · exact hr c hc
    · exact (show ∀ x ∈ ",".toList, x ≠ 'T' by decide) c hc
  · decide
  · decide
  · decide

theorem localReply_chars_no_T (d : LocalDraws) (topic : List Char)
    (speaker : Option Persona) (lastLine : List Char) :
    ∀ c ∈ localReply d topic speaker lastLine, c ≠ 'T' := by
  intro c hc
  unfold localReply at hc
  have h1 := mem_of_mem_trimWs _ _ hc
  rcases mem_of_mem_collapseAux _ _ _ h1 with h2 | h2
  · simp only [List.append_assoc, List.mem_append] at h2
    rcases h2 with h3 | h3 | h3 | h3 | h3
    · exact openersList_no_T _ _ (personaStyle_no_T _ _) (lowerStr_no_T _) _
        (list_getD_mem _ _ [] (by simp [openersList]; omega)) c h3
    · exact (show ∀ x ∈ " ".toList, x ≠ 'T' by decide) c h3
    · split at h3
      · simp at h3
      · exact (show ∀ x ∈ "building on that point, ".toList, x ≠ 'T' by decide) c h3
    · have hsub : ∀ x ∈ [
          "when thinking about ".toList ++ lowerStr (topicFocus topic),
          "on the question of ".toList ++ lowerStr (topicFocus topic),
          "regarding ".toList ++ lowerStr (topicFocus topic),
          "in terms of ".toList ++ lowerStr (topicFocus topic)],
          ∀ c ∈ x, c ≠ 'T' := by
        intro x hx
        simp only [List.mem_cons, List.not_mem_nil, or_false] at hx
        rcases hx with rfl | rfl | rfl | rfl
        · intro c hc2
          rcases List.mem_append.mp hc2 with h4 | h4
          · exact (show ∀ x ∈ "when thinking about ".toList, x ≠ 'T' by decide) c h4
          · exact lowerStr_no_T _ c h4
        · intro c hc2
          rcases List.mem_append.mp hc2 with h4 | h4
          · exact (show ∀ x ∈ "on the question of ".toList, x ≠ 'T' by decide) c h4
          · exact lowerStr_no_T _ c h4
        · intro c hc2
          rcases List.mem_append.mp hc2 with h4 | h4
          · exact (show ∀ x ∈ "regarding ".toList, x ≠ 'T' by decide) c h4
          · exact lowerStr_no_T _ c h4
        · intro c hc2
          rcases List.mem_append.mp hc2 with h4 | h4
          · exact (show ∀ x ∈ "in terms of ".toList, x ≠ 'T' by decide) c h4
          · exact lowerStr_no_T _ c h4
      exact getD_no_T _ hsub _ c h3
    · rcases h3 with h4 | h4
      · exact (show ∀ x ∈ ", ".toList, x ≠ 'T' by decide) c h4
      · exact getD_no_T _ (claimPoolFor_no_T _) _ c h4
  · rw [h2]
    decide

theorem mem_dropWhileWs_of_not (l : List Char) (c : Char) (hc : c ∈ l)
    (hw : isWsChar c = false) : c ∈ l.dropWhile isWsChar := by
  have := List.takeWhile_append_dropWhile isWsChar l
  rw [← this] at hc
  rcases List.mem_append.mp hc with h | h
  · have := List.mem_takeWhile_imp h
    rw [hw] at this
    exact absurd this (by simp)
  · exact h

theorem trimWs_ne_nil (l : List Char) (c : Char) (hc : c ∈ l)
    (hw : isWsChar c = false) : trimWs l ≠ [] := by
  unfold trimWs
  have h1 : c ∈ l.dropWhile isWsChar := mem_dropWhileWs_of_not l c hc hw
  have h2 : c ∈ (l.dropWhile isWsChar).reverse := List.mem_reverse.mpr h1
  have h3 := mem_dropWhileWs_of_not _ c h2 hw
  intro hnil
  rw [List.reverse_eq_nil_iff] at hnil
  rw [hnil] at h3
  simp at h3

theorem mem_collapseAux_of_not_ws (l : List Char) (c : Char) (hc : c ∈ l)
    (hw : isWsChar c = false) : ∀ b, c ∈ collapseAux b l := by
  induction l with
  | nil => simp at hc
  | cons a t ih =>
    intro b
    unfold collapseAux
    split
    · next ha =>
      have hct : c ∈ t := by
        rcases List.mem_cons.mp hc with h | h
        · rw [h] at hw; rw [hw] at ha; simp at ha
        · exact h
      split
      · exact ih hct true
      · exact List.mem_cons_of_mem ' ' (ih hct true)
    · rcases List.mem_cons.mp hc with h | h
      · rw [h]; exact List.mem_cons_self a _
      · exact List.mem_cons_of_mem a (ih h false)

theorem trim_collapse_ne_nil (l : List Char) (c : Char) (hc : c ∈ l)
    (hw : isWsChar c = false) : trimWs (collapseWs l) ≠ [] :=
  fun hnil => trimWs_ne_nil _ c (mem_collapseAux_of_not_ws l c hc hw false) hw hnil

theorem openersList_length (tone roleLower : List Char) :
    (openersList tone roleLower).length = 5 := by
  simp [openersList]

theorem opener_witness (tone roleLower : List Char) (k : Nat) :
    ∃ c, c ∈ (openersList tone roleLower).getD (k % 5) [] ∧ isWsChar c = false := by
  have h5 : k % 5 = 0 ∨ k % 5 = 1 ∨ k % 5 = 2 ∨ k % 5 = 3 ∨ k % 5 = 4 := by omega
  rcases h5 with h | h | h | h | h <;> rw [h] <;> unfold openersList <;>
    simp only [List.getD_cons_zero, List.getD_cons_succ]
  · exact ⟨'F', by simp, by decide⟩
  · exact ⟨'I', by simp, by decide⟩
  · exact ⟨'H', by decide, by decide⟩
  · exact ⟨'L', by decide, by decide⟩
  · exact ⟨'S', by decide, by decide⟩

theorem localReply_ne_nil (d : LocalDraws) (topic : List Char)
    (speaker : Option Persona) (lastLine : List Char) :
    localReply d topic speaker lastLine ≠ [] := by
  obtain ⟨c0, hc0, hw0⟩ := opener_witness
    (personaStyle (speaker.getD placeholderPersona).role
      (speaker.getD placeholderPersona).stance)
    (lowerStr (if (speaker.getD placeholderPersona).role.isEmpty then
      "participant".toList else (speaker.getD placeholderPersona).role))
    d.openerPick
  unfold localReply
  simp only []
  rw [openersList_length]
  refine trim_collapse_ne_nil _ c0 ?_ hw0
  simp only [List.append_assoc, List.mem_append]
  exact Or.inl hc0

/-- C4 (amended): for every topic, speaker and prior line, and every random
draw, the local reply generator returns a non-empty string that never
contains the exact literal text "Topic:"; the stronger case-insensitive
guarantee fails (see the counterexample) because only the first word-bounded
label is stripped from the topic before it is embedded lower-cased. -/
theorem c4_local_reply_nonempty_no_literal_label (d : LocalDraws) (topic : List Char)
    (speaker : Option Persona) (lastLine : List Char) :
    localReply d topic speaker lastLine ≠ [] ∧
    containsB "Topic:".toList (localReply d topic speaker lastLine) = false :=
  ⟨localReply_ne_nil d topic speaker lastLine,
   containsB_topic_eq_false _ (localReply_chars_no_T d topic speaker lastLine)⟩

/-! ### C8: idempotence of the `Topic:` strip step -/

theorem topicAt_iff (l : List Char) :
    topicAt l = true ↔ (l.take 6).map Char.toLower = "topic:".toList := by
  unfold topicAt
  exact beq_iff_eq

theorem topicAt_cons_head (c : Char) (X : List Char) (h : topicAt (c :: X) = true) :
    Char.toLower c = 't' := by
  rw [topicAt_iff] at h
  have h0 := congrArg (fun l => l[0]?) h
  simp only [List.getElem?_map, List.getElem?_take] at h0
  simp at h0
  exact h0

theorem topicAt_cons_of_head (c : Char) (X : List Char) (h : Char.toLower c ≠ 't') :
    topicAt (c :: X) = false := by
  by_contra hcon
  rw [Bool.not_eq_false] at hcon
  exact h (topicAt_cons_head c X hcon)

theorem ws_toLower_eq (c : Char) (h : isWsChar c = true) : Char.toLower c = c := by
  simp only [isWsChar, Bool.or_eq_true, beq_iff_eq] at h
  rcases h with (((((rfl | rfl) | rfl) | rfl) | rfl) | rfl) <;> decide

theorem ws_not_word (c : Char) (h : isWsChar c = true) : isWordChar c = false := by
  simp only [isWsChar, Bool.or_eq_true, beq_iff_eq] at h
  rcases h with (((((rfl | rfl) | rfl) | rfl) | rfl) | rfl) <;> decide

theorem topicAt_ws_head (c : Char) (X : List Char) (h : isWsChar c = true) :
    topicAt (c :: X) = false := by
  apply topicAt_cons_of_head
  rw [ws_toLower_eq c h]
  intro heq
  rw [heq] at h
  exact absurd h (by decide)

theorem topicAt_length (l : List Char) (h : topicAt l = true) : 6 ≤ l.length := by
  rw [topicAt_iff] at h
  have := congrArg List.length h
  simp only [List.length_map, List.length_take] at this
  have h2 : ("topic:".toList).length = 6 := by decide
  omega

theorem topicAt_append (l q : List Char) (h : topicAt l = true) :
    topicAt (l ++ q) = true := by
  have hlen := topicAt_length l h
  rw [topicAt_iff] at h ⊢
  rw [List.take_append_of_le_length hlen]
  exact h

theorem hasMatch_mono (w : Bool) (l : List Char) (h : hasMatch false l = false) :
    hasMatch w l = false := by
  cases l with
  | nil => rfl
  | cons c rest =>
    simp only [hasMatch, Bool.or_eq_false_iff] at h ⊢
    refine ⟨?_, h.2⟩
    cases w
    · exact h.1
    · simp

theorem hasMatch_append_right (l q : List Char) :
    ∀ w, hasMatch w l = true → hasMatch w (l ++ q) = true := by
  induction l with
  | nil => intro w h; simp [hasMatch] at h
  | cons c rest ih =>
    intro w h
    rw [List.cons_append]
    simp only [hasMatch, Bool.or_eq_true] at h ⊢
    rcases h with h | h
    · left
      simp only [Bool.and_eq_true] at h ⊢
      exact ⟨h.1, topicAt_append _ q h.2⟩
    · right
      exact ih _ h

theorem stripAux_true_eq (X : List Char) :
    ∀ pw, stripAux pw true X =
      stripAux false false (X.dropWhile (fun c => c != '\n')) := by
  induction X with
  | nil => intro pw; rfl
  | cons c rest ih =>
    intro pw
    by_cases hc : c = '\n'
    · subst hc
      rw [List.dropWhile_cons]
      simp only [bne_self_eq_false, if_neg (by simp : ¬(false = true))]
      have hta : topicAt ('\n' :: rest) = false := topicAt_ws_head '\n' rest (by decide)
      simp only [stripAux, hta]
      simp [isWordChar]
    · have hbne : (c == '\n') = false := by simpa using hc
      rw [List.dropWhile_cons, if_pos (by simpa using hc)]
      simp only [stripAux, hbne]
      simp only [if_neg (by simp : ¬(false = true))]
      exact ih (isWordChar c)

theorem stripAux_no_match_id (l : List Char) :
    ∀ pw, hasMatch pw l = false → stripAux pw false l = l := by
  induction l with
  | nil => intro pw _; rfl
  | cons c rest ih =>
    intro pw h
    simp only [hasMatch, Bool.or_eq_false_iff] at h
    simp only [stripAux, h.1]
    simp only [if_neg (by simp : ¬(false = true))]
    rw [ih (isWordChar c) h.2]

theorem dropWhile_head_cases (p : Char → Bool) (l : List Char) :
    l.dropWhile p = [] ∨
      ∃ a t, l.dropWhile p = a :: t ∧ p a = false := by
  induction l with
  | nil => exact Or.inl rfl
  | cons c rest ih =>
    rw [List.dropWhile_cons]
    by_cases hc : p c = true
    · rw [if_pos hc]
      exact ih
    · rw [if_neg hc]
      exact Or.inr ⟨c, rest, rfl, by simpa using hc⟩

theorem stripAux_newline_cons (t : List Char) (pw : Bool) :
    stripAux pw false ('\n' :: t) = '\n' :: stripAux false false t := by
  have hta : topicAt ('\n' :: t) = false := topicAt_ws_head '\n' t (by decide)
  simp only [stripAux, hta]
  simp [isWordChar]

theorem stripAux_structure (l : List Char) :
    ∀ pw, stripAux pw false l = l ∨
      ∃ u r w, stripAux pw false l = u ++ r ∧ l = u ++ w ∧
        (r = [] ∨ ∃ t, r = '\n' :: t) := by
  induction l with
  | nil => intro pw; exact Or.inl rfl
  | cons c rest ih =>
    intro pw
    by_cases hm : (!pw && topicAt (c :: rest)) = true
    · right
      have hstep : stripAux pw false (c :: rest) = stripAux (isWordChar c) true rest := by
        simp only [stripAux, hm]
        simp
      rw [hstep, stripAux_true_eq rest (isWordChar c)]
      rcases dropWhile_head_cases (fun x => x != '\n') rest with hY | ⟨a, t, hY, ha⟩
      · rw [hY]
        exact ⟨[], [], c :: rest, rfl, rfl, Or.inl rfl⟩
      · have ha2 : a = '\n' := by simpa using ha
        subst ha2
        rw [hY, stripAux_newline_cons t false]
        exact ⟨[], '\n' :: stripAux false false t, c :: rest, rfl, rfl,
          Or.inr ⟨stripAux false false t, rfl⟩⟩
    · have hstep : stripAux pw false (c :: rest) =
          c :: stripAux (isWordChar c) false rest := by
        simp only [stripAux, if_neg hm]
      rcases ih (isWordChar c) with h | ⟨u, r, w, h1, h2, h3⟩
      · left
        rw [hstep, h]
      · right
        exact ⟨c :: u, r, w, by rw [hstep, h1]; rfl, by rw [h2]; rfl, h3⟩

theorem topicAt_across_seam (c : Char) (u r w : List Char)
    (hr : r = [] ∨ ∃ t, r = '\n' :: t)
    (h : topicAt (c :: (u ++ r)) = true) :
    topicAt (c :: (u ++ w)) = true := by
  by_cases hu : 5 ≤ u.length
  · rw [topicAt_iff] at h ⊢
    rw [show (6 : Nat) = 5 + 1 from rfl, List.take_succ_cons,
      List.take_append_of_le_length hu] at h ⊢
    exact h
  · exfalso
    have hlen := topicAt_length _ h
    simp only [List.length_cons, List.length_append] at hlen
    rcases hr with rfl | ⟨t, rfl⟩
    · simp at hlen
      omega
    · rw [topicAt_iff] at h
      have hidx : (c :: (u ++ '\n' :: t))[1 + u.length]? = some '\n' := by
        rw [show (1 + u.length) = u.length + 1 from by omega, List.getElem?_cons_succ,
          List.getElem?_append_right (Nat.le_refl _)]
        simp
      have htake : ((c :: (u ++ '\n' :: t)).take 6)[1 + u.length]? = some '\n' := by
        rw [List.getElem?_take, if_pos (by omega)]
        exact hidx
      have hlit := congrArg (fun l => l[1 + u.length]?) h
      simp only [List.getElem?_map, htake, Option.map_some'] at hlit
      have hmem : Char.toLower '\n' ∈ "topic:".toList := List.getElem?_mem hlit.symm
      revert hmem
      decide

theorem stripAux_output_no_match :
    ∀ (n : Nat) (l : List Char), l.length ≤ n →
      ∀ pw, hasMatch pw (stripAux pw false l) = false := by
  intro n
  induction n with
  | zero =>
    intro l hl pw
    have hnil : l = [] := List.length_eq_zero.mp (Nat.le_zero.mp hl)
    subst hnil
    rfl
  | succ n ih =>
    intro l hl pw
    cases l with
    | nil => rfl
    | cons c rest =>
      by_cases hm : (!pw && topicAt (c :: rest)) = true
      · have hstep : stripAux pw false (c :: rest) = stripAux (isWordChar c) true rest := by
          simp only [stripAux, hm]
          simp
        rw [hstep, stripAux_true_eq rest (isWordChar c)]
        rcases dropWhile_head_cases (fun x => x != '\n') rest with hY | ⟨a, t, hY, ha⟩
        · rw [hY]
          rfl
        · have ha2 : a = '\n' := by simpa using ha
          subst ha2
          rw [hY, stripAux_newline_cons t false]
          have hlenY : ('\n' :: t).length ≤ rest.length := by
            rw [← hY]
            exact (List.dropWhile_sublist (fun x => x != '\n')).length_le
          have htlen : t.length ≤ n := by
            simp only [List.length_cons] at hl hlenY
            omega
          have hZ := ih t htlen false
          simp only [hasMatch, topicAt_ws_head '\n' _ (by decide), Bool.and_false,
            Bool.false_or]
          rw [show isWordChar '\n' = false from by decide]
          exact hZ
      · have hstep : stripAux pw false (c :: rest) =
            c :: stripAux (isWordChar c) false rest := by
          simp only [stripAux, if_neg hm]
        rw [hstep]
        simp only [hasMatch, Bool.or_eq_false_iff]
        constructor
        · by_cases hpw : pw
          · simp [hpw]
          · have hpw2 : pw = false := by simpa using hpw
            subst hpw2
            simp only [Bool.not_false, Bool.true_and] at hm ⊢
            rcases stripAux_structure rest (isWordChar c) with hT | ⟨u, r, w, h1, h2, h3⟩
            · rw [hT]
              simpa using hm
            · rw [h1]
              by_contra hcon
              rw [Bool.not_eq_false] at hcon
              have hback := topicAt_across_seam c u r w h3 hcon
              rw [← h2] at hback
              exact hm hback
        · exact ih rest (by simp only [List.length_cons] at hl; omega) (isWordChar c)

theorem hasMatch_dropWhileWs (l : List Char) (h : hasMatch false l = false) :
    hasMatch false (l.dropWhile isWsChar) = false := by
  induction l with
  | nil => exact h
  | cons c rest ih =>
    rw [List.dropWhile_cons]
    by_cases hc : isWsChar c = true
    · rw [if_pos hc]
      apply ih
      simp only [hasMatch, Bool.or_eq_false_iff] at h
      have h2 := h.2
      rwa [ws_not_word c hc] at h2
    · rw [if_neg hc]
      exact h

theorem collapse_cons_ws_false (c : Char) (rest : List Char) (hc : isWsChar c = true) :
    collapseAux false (c :: rest) = ' ' :: collapseAux true rest := by
  simp only [collapseAux, hc]
  simp

theorem collapse_cons_ws_true (c : Char) (rest : List Char) (hc : isWsChar c = true) :
    collapseAux true (c :: rest) = collapseAux true rest := by
  simp only [collapseAux, hc]
  simp

theorem collapse_cons_not_ws (c : Char) (rest : List Char) (b : Bool)
    (hc : isWsChar c = false) :
    collapseAux b (c :: rest) = c :: collapseAux false rest := by
  simp only [collapseAux, hc]
  simp

theorem collapse_take_eq (l : List Char) :
    ∀ n, (∀ x ∈ (collapseAux false l).take n, isWsChar x = false) →
      (collapseAux false l).take n = l.take n := by
  induction l with
  | nil => intro n _; rfl
  | cons c rest ih =>
    intro n hn
    by_cases hc : isWsChar c = true
    · cases n with
      | zero => simp
      | succ m =>
        exfalso
        rw [collapse_cons_ws_false c rest hc] at hn
        have := hn ' ' (by rw [List.take_succ_cons]; exact List.mem_cons_self ..)
        exact absurd this (by decide)
    · have hc2 : isWsChar c = false := by simpa using hc
      cases n with
      | zero => simp
      | succ m =>
        rw [collapse_cons_not_ws c rest false hc2, List.take_succ_cons,
          List.take_succ_cons]
        congr 1
        apply ih
        intro x hx
        apply hn
        rw [collapse_cons_not_ws c rest false hc2, List.take_succ_cons]
        exact List.mem_cons_of_mem c hx

theorem topicAt_tail_not_ws (c : Char) (Z : List Char) (h : topicAt (c :: Z) = true) :
    ∀ x ∈ Z.take 5, isWsChar x = false := by
  rw [topicAt_iff] at h
  rw [show (6 : Nat) = 5 + 1 from rfl, List.take_succ_cons, List.map_cons] at h
  have htail : (Z.take 5).map Char.toLower = "opic:".toList :=
    ((List.cons.injEq _ _ _ _).mp h).2
  intro x hx
  by_contra hcon
  rw [Bool.not_eq_false] at hcon
  have hxl : Char.toLower x ∈ "opic:".toList := by
    rw [← htail]
    exact List.mem_map_of_mem _ hx
  rw [ws_toLower_eq x hcon] at hxl
  simp only [isWsChar, Bool.or_eq_true, beq_iff_eq] at hcon
  rcases hcon with (((((rfl | rfl) | rfl) | rfl) | rfl) | rfl) <;> revert hxl <;> decide

theorem hasMatch_collapse (l : List Char) :
    ∀ b w, hasMatch w l = false → hasMatch w (collapseAux b l) = false := by
  induction l with
  | nil => intro b w _; rfl
  | cons c rest ih =>
    intro b w h
    simp only [hasMatch, Bool.or_eq_false_iff] at h
    obtain ⟨hhead, htail⟩ := h
    by_cases hc : isWsChar c = true
    · have hrest : hasMatch false rest = false := by
        rwa [ws_not_word c hc] at htail
      by_cases hb : b = true
      · subst hb
        rw [collapse_cons_ws_true c rest hc]
        exact ih true w (hasMatch_mono w rest hrest)
      · have hb2 : b = false := by simpa using hb
        subst hb2
        rw [collapse_cons_ws_false c rest hc]
        simp only [hasMatch, Bool.or_eq_false_iff]
        constructor
        · rw [topicAt_ws_head ' ' _ (by decide)]
          simp
        · rw [show isWordChar ' ' = false from by decide]
          exact ih true false hrest
    · have hc2 : isWsChar c = false := by simpa using hc
      rw [collapse_cons_not_ws c rest b hc2]
      simp only [hasMatch, Bool.or_eq_false_iff]
      refine ⟨?_, ih false (isWordChar c) htail⟩
      by_cases hw : w = true
      · subst hw
        simp
      · have hw2 : w = false := by simpa using hw
        subst hw2
        simp only [Bool.not_false, Bool.true_and] at hhead ⊢
        by_contra hcon
        rw [Bool.not_eq_false] at hcon
        have hws := topicAt_tail_not_ws c _ hcon
        have heq := collapse_take_eq rest 5 hws
        have hres : topicAt (c :: rest) = true := by
          rw [topicAt_iff] at hcon ⊢
          rw [show (6 : Nat) = 5 + 1 from rfl, List.take_succ_cons] at hcon ⊢
          rw [← heq]
          exact hcon
        rw [hres] at hhead
        exact absurd hhead (by simp)

theorem trimWs_prefix_decomp (l : List Char) :
    ∃ w, l.dropWhile isWsChar = trimWs l ++ w := by
  refine ⟨((l.dropWhile isWsChar).reverse.takeWhile isWsChar).reverse, ?_⟩
  have hsplit := List.takeWhile_append_dropWhile isWsChar (l.dropWhile isWsChar).reverse
  calc l.dropWhile isWsChar
      = (l.dropWhile isWsChar).reverse.reverse := (List.reverse_reverse _).symm
    _ = ((l.dropWhile isWsChar).reverse.takeWhile isWsChar ++
          (l.dropWhile isWsChar).reverse.dropWhile isWsChar).reverse := by rw [hsplit]
    _ = ((l.dropWhile isWsChar).reverse.dropWhile isWsChar).reverse ++
          ((l.dropWhile isWsChar).reverse.takeWhile isWsChar).reverse :=
        List.reverse_append _ _

theorem hasMatch_trim (l : List Char) (h : hasMatch false l = false) :
    hasMatch false (trimWs l) = false := by
  have h1 := hasMatch_dropWhileWs l h
  obtain ⟨w, hw⟩ := trimWs_prefix_decomp l
  by_contra hcon
  rw [Bool.not_eq_false] at hcon
  have h2 := hasMatch_append_right (trimWs l) w false hcon
  rw [← hw] at h2
  rw [h1] at h2
  exact absurd h2 (by simp)

theorem collapse_ws_space (l : List Char) :
    ∀ b x, x ∈ collapseAux b l → isWsChar x = true → x = ' ' := by
  induction l with
  | nil => intro b x hx _; simp [collapseAux] at hx
  | cons c rest ih =>
    intro b x hx hws
    by_cases hc : isWsChar c = true
    · by_cases hb : b = true
      · subst hb
        rw [collapse_cons_ws_true c rest hc] at hx
        exact ih true x hx hws
      · have hb2 : b = false := by simpa using hb
        subst hb2
        rw [collapse_cons_ws_false c rest hc] at hx
        rcases List.mem_cons.mp hx with rfl | hx2
        · rfl
        · exact ih true x hx2 hws
    · have hc2 : isWsChar c = false := by simpa using hc
      rw [collapse_cons_not_ws c rest b hc2] at hx
      rcases List.mem_cons.mp hx with rfl | hx2
      · rw [hws] at hc2
        exact absurd hc2 (by simp)
      · exact ih false x hx2 hws

theorem collapse_true_head (l : List Char) :
    collapseAux true l = [] ∨
      ∃ c t, collapseAux true l = c :: t ∧ isWsChar c = false := by
  induction l with
  | nil => exact Or.inl rfl
  | cons c rest ih =>
    by_cases hc : isWsChar c = true
    · rw [collapse_cons_ws_true c rest hc]
      exact ih
    · have hc2 : isWsChar c = false := by simpa using hc
      rw [collapse_cons_not_ws c rest true hc2]
      exact Or.inr ⟨c, _, rfl, hc2⟩

theorem noTwoWs_tail (a : Char) (l : List Char) (h : noTwoWs (a :: l) = true) :
    noTwoWs l = true := by
  cases l with
  | nil => rfl
  | cons b t =>
    simp only [noTwoWs, Bool.and_eq_true] at h
    exact h.2

theorem noTwoWs_collapse (l : List Char) : ∀ b, noTwoWs (collapseAux b l) = true := by
  induction l with
  | nil => intro b; rfl
  | cons c rest ih =>
    intro b
    by_cases hc : isWsChar c = true
    · by_cases hb : b = true
      · subst hb
        rw [collapse_cons_ws_true c rest hc]
        exact ih true
      · have hb2 : b = false := by simpa using hb
        subst hb2
        rw [collapse_cons_ws_false c rest hc]
        rcases collapse_true_head rest with hnil | ⟨z, t, hz, hzws⟩
        · rw [hnil]
          rfl
        · rw [hz]
          simp only [noTwoWs, Bool.and_eq_true]
          constructor
          · rw [hzws]
            simp
          · have h2 := ih true
            rwa [hz] at h2
    · have hc2 : isWsChar c = false := by simpa using hc
      rw [collapse_cons_not_ws c rest b hc2]
      cases hZ : collapseAux false rest with
      | nil => rfl
      | cons z t =>
        simp only [noTwoWs, Bool.and_eq_true]
        constructor
        · rw [hc2]
          simp
        · have h2 := ih false
          rwa [hZ] at h2

theorem collapse_fix (l : List Char)
    (hsp : ∀ x ∈ l, isWsChar x = true → x = ' ')
    (hnd : noTwoWs l = true) : collapseAux false l = l := by
  induction l with
  | nil => rfl
  | cons c rest ih =>
    by_cases hc : isWsChar c = true
    · have hcsp : c = ' ' := hsp c (List.mem_cons_self ..) hc
      subst hcsp
      rw [collapse_cons_ws_false ' ' rest (by decide)]
      congr 1
      cases rest with
      | nil => rfl
      | cons z t =>
        have hz : isWsChar z = false := by
          simp only [noTwoWs, Bool.and_eq_true] at hnd
          have hpair := hnd.1
          rw [show isWsChar ' ' = true from by decide] at hpair
          simpa using hpair
        rw [collapse_cons_not_ws z t true hz, ← collapse_cons_not_ws z t false hz]
        exact ih (fun x hx hw => hsp x (List.mem_cons_of_mem _ hx) hw)
          (noTwoWs_tail _ _ hnd)
    · have hc2 : isWsChar c = false := by simpa using hc
      rw [collapse_cons_not_ws c rest false hc2]
      congr 1
      exact ih (fun x hx hw => hsp x (List.mem_cons_of_mem _ hx) hw)
        (noTwoWs_tail _ _ hnd)

theorem noTwoWs_append_right (P Q : List Char) (h : noTwoWs (P ++ Q) = true) :
    noTwoWs Q = true := by
  induction P with
  | nil => exact h
  | cons a t ih =>
    rw [List.cons_append] at h
    exact ih (noTwoWs_tail _ _ h)

theorem noTwoWs_append_left (P Q : List Char) (h : noTwoWs (P ++ Q) = true) :
    noTwoWs P = true := by
  induction P with
  | nil => rfl
  | cons a t ih =>
    cases t with
    | nil => rfl
    | cons b t2 =>
      rw [List.cons_append, List.cons_append] at h
      simp only [noTwoWs, Bool.and_eq_true] at h ⊢
      refine ⟨h.1, ?_⟩
      have h2 := ih (by rw [List.cons_append]; exact h.2)
      exact h2

theorem trimWs_head_cases (l : List Char) :
    trimWs l = [] ∨ ∃ c t, trimWs l = c :: t ∧ isWsChar c = false := by
  obtain ⟨w, hw⟩ := trimWs_prefix_decomp l
  rcases dropWhile_head_cases isWsChar l with hY | ⟨a, t, hY, ha⟩
  · left
    rw [hY] at hw
    exact (List.append_eq_nil.mp hw.symm).1
  · cases htl : trimWs l with
    | nil => exact Or.inl rfl
    | cons c t2 =>
      right
      refine ⟨c, t2, rfl, ?_⟩
      rw [hY, htl, List.cons_append] at hw
      injection hw with h1 _
      rwa [← h1]

theorem trimWs_getLast_cases (l : List Char) :
    trimWs l = [] ∨ ∃ c t, trimWs l = t ++ [c] ∧ isWsChar c = false := by
  rcases dropWhile_head_cases isWsChar (l.dropWhile isWsChar).reverse with hR | ⟨a, t, hR, ha⟩
  · left
    show ((l.dropWhile isWsChar).reverse.dropWhile isWsChar).reverse = []
    rw [hR]
    rfl
  · right
    refine ⟨a, t.reverse, ?_, ha⟩
    show ((l.dropWhile isWsChar).reverse.dropWhile isWsChar).reverse = t.reverse ++ [a]
    rw [hR]
    simp

theorem trimWs_fix (l : List Char) : trimWs (trimWs l) = trimWs l := by
  show (((trimWs l).dropWhile isWsChar).reverse.dropWhile isWsChar).reverse = trimWs l
  rcases trimWs_head_cases l with hnil | ⟨c, t, hct, hc⟩
  · rw [hnil]
    rfl
  · have hdrop : (trimWs l).dropWhile isWsChar = trimWs l := by
      rw [hct, List.dropWhile_cons, if_neg (by rw [hc]; simp)]
    rw [hdrop]
    rcases trimWs_getLast_cases l with hnil2 | ⟨c2, t2, h2, hc2⟩
    · rw [hnil2]
      rfl
    · rw [h2, List.reverse_append]
      simp only [List.reverse_cons, List.reverse_nil, List.nil_append,
        List.singleton_append]
      rw [List.dropWhile_cons, if_neg (by rw [hc2]; simp)]
      rw [show (c2 :: t2.reverse) = (t2 ++ [c2]).reverse from by simp]
      rw [List.reverse_reverse]

theorem collapse_trim_norm (s : List Char) :
    collapseAux false (trimWs (collapseAux false s)) = trimWs (collapseAux false s) := by
  apply collapse_fix
  · intro x hx hws
    exact collapse_ws_space s false x (mem_of_mem_trimWs _ x hx) hws
  · have h1 : noTwoWs (collapseAux false s) = true := noTwoWs_collapse s false
    have h2 : noTwoWs ((collapseAux false s).dropWhile isWsChar) = true := by
      have hsplit := List.takeWhile_append_dropWhile isWsChar (collapseAux false s)
      exact noTwoWs_append_right _ _ (by rw [hsplit]; exact h1)
    obtain ⟨w, hw⟩ := trimWs_prefix_decomp (collapseAux false s)
    exact noTwoWs_append_left _ _ (by rw [← hw]; exact h2)

/-- C8: the sanitizer's "Topic:" strip step — remove every substring matching
the case-insensitive word-bounded pattern `Topic:` through end of line,
collapse whitespace runs to single spaces, trim — is idempotent: applying it
twice yields the same result as applying it once. -/
theorem c8_strip_idempotent (l : List Char) : stripStep (stripStep l) = stripStep l := by
  have h1 : hasMatch false (stripAux false false l) = false :=
    stripAux_output_no_match (l.length) l (Nat.le_refl _) false
  have h2 : hasMatch false (collapseWs (stripTopicLabels l)) = false :=
    hasMatch_collapse _ false false h1
  have h3 : hasMatch false (stripStep l) = false := hasMatch_trim _ h2
  show trimWs (collapseWs (stripTopicLabels (stripStep l))) = stripStep l
  rw [show stripTopicLabels (stripStep l) = stripStep l from
    stripAux_no_match_id _ false h3]
  show trimWs (collapseAux false (trimWs (collapseAux false (stripTopicLabels l)))) =
    stripStep l
  rw [collapse_trim_norm (stripTopicLabels l)]
  exact trimWs_fix _

end DebateApp
